import Mathlib

/-!
Verification of the api-extractor core against its natural-language
specification.  The development shallowly embeds the relevant parts of the
TypeScript sources:

* `ReviewFileGenerator.areEquivalentApiFileContents` and
  `ReviewFileGenerator._getAedocSynopsis` / `_writeLineAsComment` and the
  VariableDeclaration branch of `ReviewFileGenerator._modifySpan`
  (cli/RunAction.ts, second file);
* the `Span` tree: construction, `getText`, `getLastInnerSeparator` and
  `_writeModifiedText` (analyzer/Span.ts);
* `AstDeclaration`: `children`, `referencedAstSymbols`,
  `_notifyChildAttach`, `_notifyReferencedAstSymbol` (unnamed/part_002);
* `ApiItemContainerMixin.addMember` (unnamed/part_003).

Source text is modelled as `List Char`; JavaScript string indices become
`Nat` indices into that list.
-/

/-- Source text: a JavaScript string modelled as its list of characters. -/
abbrev Text := List Char

/-- `String.prototype.substring(a, b)` on a text (for `a ≤ b`):
the characters with indices in `[a, b)`. -/
def textSlice (s : Text) (a b : Nat) : Text :=
  (s.drop a).take (b - a)

theorem textSlice_same (s : Text) (a : Nat) : textSlice s a a = [] := by
  simp [textSlice]

theorem textSlice_append (s : Text) {a e b : Nat} (h1 : a ≤ e) (h2 : e ≤ b) :
    textSlice s a e ++ textSlice s e b = textSlice s a b := by
  unfold textSlice
  have hb : b - a = (e - a) + (b - e) := by omega
  rw [hb, List.take_add, List.drop_drop]
  have he : a + (e - a) = e := by omega
  rw [he]

/- ----------------------------------------------------------------------
ReviewFileGenerator.areEquivalentApiFileContents (cli/RunAction.ts):

    public static areEquivalentApiFileContents(actualFileContent, expectedFileContent) {
      const normalizedActual = actualFileContent.replace(/[\s]+/g, ' ');
      const normalizedExpected = expectedFileContent.replace(/[\s]+/g, ' ');
      return normalizedActual === normalizedExpected;
    }
---------------------------------------------------------------------- -/

/-- The character class matched by the JavaScript regular expression
escape for whitespace (space, tab, LF, VT, FF, CR, NBSP, the Unicode
space separators, line and paragraph separators, NNBSP, MMSP,
ideographic space and BOM). -/
def isJsSpace (c : Char) : Bool :=
  let n := c.toNat
  n == 32 || (9 ≤ n && n ≤ 13) || n == 160 || n == 5760 ||
    (8192 ≤ n && n ≤ 8202) || n == 8232 || n == 8233 || n == 8239 ||
    n == 8287 || n == 12288 || n == 65279

/-- `text.replace(regex-whitespace-run, ' ')` with the global flag: every
maximal run of whitespace characters is replaced by a single space. -/
def collapseWs : Text → Text
  | [] => []
  | c :: rest =>
    if isJsSpace c then ' ' :: collapseWs (rest.dropWhile isJsSpace)
    else c :: collapseWs rest
termination_by t => t.length
decreasing_by
  · simp only [List.length_cons]
    exact Nat.lt_succ_of_le (List.dropWhile_sublist isJsSpace).length_le
  · simp

/-- `ReviewFileGenerator.areEquivalentApiFileContents`. -/
def areEquivalentApiFileContents (actualFileContent expectedFileContent : Text) : Bool :=
  let normalizedActual := collapseWs actualFileContent
  let normalizedExpected := collapseWs expectedFileContent
  normalizedActual == normalizedExpected

/-- A text whose first character (if any) is not whitespace. -/
def headNotWs (s : Text) : Prop :=
  ∀ c, s.head? = some c → isJsSpace c = false

/-- Two texts differ only by (maximal) runs of whitespace: they factor into
the same non-whitespace characters, with nonempty whitespace runs at the
same positions whose contents may differ. -/
inductive OnlyWsRunsDiffer : Text → Text → Prop
  | nil : OnlyWsRunsDiffer [] []
  | nonws {s t : Text} (c : Char) (hc : isJsSpace c = false)
      (h : OnlyWsRunsDiffer s t) : OnlyWsRunsDiffer (c :: s) (c :: t)
  | run {s t : Text} (r r' : Text)
      (hr : r ≠ []) (hrw : ∀ c ∈ r, isJsSpace c = true)
      (hr' : r' ≠ []) (hrw' : ∀ c ∈ r', isJsSpace c = true)
      (hs : headNotWs s) (ht : headNotWs t)
      (h : OnlyWsRunsDiffer s t) : OnlyWsRunsDiffer (r ++ s) (r' ++ t)

theorem dropWhile_ws_append {w s : Text} (hw : ∀ c ∈ w, isJsSpace c = true) :
    (w ++ s).dropWhile isJsSpace = s.dropWhile isJsSpace := by
  induction w with
  | nil => simp
  | cons c w ih =>
    have hc : isJsSpace c = true := hw c (by simp)
    simp only [List.cons_append, List.dropWhile_cons, hc, if_true]
    exact ih (fun c hc' => hw c (by simp [hc']))

theorem dropWhile_of_headNotWs {s : Text} (hs : headNotWs s) :
    s.dropWhile isJsSpace = s := by
  cases s with
  | nil => simp
  | cons c rest =>
    have := hs c (by simp)
    simp [List.dropWhile_cons, this]

theorem collapseWs_ws_run {r s : Text} (hr : r ≠ [])
    (hrw : ∀ c ∈ r, isJsSpace c = true) (hs : headNotWs s) :
    collapseWs (r ++ s) = ' ' :: collapseWs s := by
  cases r with
  | nil => exact absurd rfl hr
  | cons c rtail =>
    have hc : isJsSpace c = true := hrw c (by simp)
    rw [List.cons_append, collapseWs, if_pos hc,
      dropWhile_ws_append (fun c hc' => hrw c (by simp [hc'])),
      dropWhile_of_headNotWs hs]

theorem collapseWs_eq_of_onlyWsRunsDiffer {a b : Text}
    (h : OnlyWsRunsDiffer a b) : collapseWs a = collapseWs b := by
  induction h with
  | nil => rfl
  | nonws c hc _ ih => rw [collapseWs, collapseWs, if_neg (by simp [hc]), if_neg (by simp [hc]), ih]
  | run r r' hr hrw hr' hrw' hs ht _ ih =>
    rw [collapseWs_ws_run hr hrw hs, collapseWs_ws_run hr' hrw' ht, ih]

/-- C3: areEquivalentApiFileContents returns true exactly when collapsing
every maximal whitespace run in each input to a single space yields
identical texts; in particular it returns true for any two texts that
differ only by runs of whitespace. -/
theorem C3_areEquivalentApiFileContents_spec :
    (∀ a b : Text, areEquivalentApiFileContents a b = true ↔ collapseWs a = collapseWs b) ∧
    (∀ a b : Text, OnlyWsRunsDiffer a b → areEquivalentApiFileContents a b = true) := by
  constructor
  · intro a b
    simp [areEquivalentApiFileContents]
  · intro a b h
    simp [areEquivalentApiFileContents, collapseWs_eq_of_onlyWsRunsDiffer h]

/-- Witness for C3 at a concrete input: "a \n b" and "a  b" differ only by
whitespace runs and are judged equivalent. -/
theorem C3_areEquivalentApiFileContents_spec_witness :
    areEquivalentApiFileContents ['a', ' ', '\n', 'b'] ['a', ' ', 'b'] = true := by
  apply C3_areEquivalentApiFileContents_spec.2
  have h3 : OnlyWsRunsDiffer ['b'] ['b'] :=
    .nonws 'b' (by decide) .nil
  have h2 : OnlyWsRunsDiffer ([' ', '\n'] ++ ['b']) ([' '] ++ ['b']) :=
    .run [' ', '\n'] [' '] (by decide) (by decide) (by decide) (by decide)
      (by intro c hc; simp only [List.head?_cons, Option.some.injEq] at hc; subst hc; decide)
      (by intro c hc; simp only [List.head?_cons, Option.some.injEq] at hc; subst hc; decide) h3
  exact .nonws 'a' (by decide) h2

/- ----------------------------------------------------------------------
The Span tree (analyzer/Span.ts).

A ts.Node is modelled by its getStart() position, its end position and its
list of children.  A Span carries startIndex, endIndex, the separator
bounds (separatorStartIndex, separatorEndIndex) and a SpanModification.
---------------------------------------------------------------------- -/

/-- A ts.Node: getStart(), end, getChildren(). -/
inductive TsNode : Type where
  | mk : Nat → Nat → List TsNode → TsNode
deriving Repr

def TsNode.start : TsNode → Nat
  | .mk st _ _ => st

def TsNode.stop : TsNode → Nat
  | .mk _ en _ => en

def TsNode.children : TsNode → List TsNode
  | .mk _ _ cs => cs

/-- SpanModification: omitChildren, omitSeparatorAfter, sortChildren,
sortKey, and the optional overrides backing the prefix/suffix setters. -/
structure SpanMod : Type where
  omitChildren : Bool
  omitSeparatorAfter : Bool
  sortChildren : Bool
  sortKey : Option Text
  preOverride : Option Text
  sufOverride : Option Text
deriving Repr, DecidableEq

/-- `SpanModification.reset()`: the state of a fresh modification. -/
def SpanMod.reset : SpanMod :=
  { omitChildren := false, omitSeparatorAfter := false, sortChildren := false,
    sortKey := none, preOverride := none, sufOverride := none }

/-- A Span: startIndex, endIndex, separatorStartIndex, separatorEndIndex,
modification, children. -/
inductive Span : Type where
  | mk : Nat → Nat → Nat → Nat → SpanMod → List Span → Span
deriving Repr

def Span.startIndex : Span → Nat
  | .mk st _ _ _ _ _ => st

def Span.endIndex : Span → Nat
  | .mk _ en _ _ _ _ => en

def Span.sepStartIndex : Span → Nat
  | .mk _ _ ss _ _ _ => ss

def Span.sepEndIndex : Span → Nat
  | .mk _ _ _ se _ _ => se

def Span.modification : Span → SpanMod
  | .mk _ _ _ _ m _ => m

def Span.children : Span → List Span
  | .mk _ _ _ _ _ cs => cs

/-- `Span.prefix` getter: everything up to the first child, or the whole
range when there are no children. -/
def Span.preText (s : Text) (sp : Span) : Text :=
  match sp.children with
  | [] => textSlice s sp.startIndex sp.endIndex
  | c :: _ => textSlice s sp.startIndex c.startIndex

/-- `Span.suffix` getter: everything after the last child, or the empty
string when there are no children. -/
def Span.sufText (s : Text) (sp : Span) : Text :=
  match sp.children.getLast? with
  | none => []
  | some c => textSlice s c.endIndex sp.endIndex

/-- `Span.separator` getter. -/
def Span.sepText (s : Text) (sp : Span) : Text :=
  textSlice s sp.sepStartIndex sp.sepEndIndex

mutual
/-- `Span.getText()`: prefix, then the children recursively, then suffix,
then separator. -/
def Span.getText (s : Text) : Span → Text
  | .mk st en ss se m cs =>
    Span.preText s (.mk st en ss se m cs) ++ Span.getTextList s cs ++
      Span.sufText s (.mk st en ss se m cs) ++ Span.sepText s (.mk st en ss se m cs)

def Span.getTextList (s : Text) : List Span → Text
  | [] => []
  | c :: rest => Span.getText s c ++ Span.getTextList s rest
end

mutual
/-- `Span.getLastInnerSeparator()`: the span's own separator if nonempty,
else recursively that of its last child, else empty. -/
def Span.getLastInnerSeparator (s : Text) : Span → Text
  | .mk st en ss se m cs =>
    if Span.sepText s (.mk st en ss se m cs) ≠ [] then
      Span.sepText s (.mk st en ss se m cs)
    else Span.lastInnerSepList s cs

def Span.lastInnerSepList (s : Text) : List Span → Text
  | [] => []
  | [c] => Span.getLastInnerSeparator s c
  | _ :: c :: rest => Span.lastInnerSepList s (c :: rest)
end

mutual
/-- The separator assignment of the Span constructor: walk down the chain
of last children while the last child ends exactly at the recipient's end,
then store the separator bounds on the recipient found. -/
def Span.assignSep (u v : Nat) : Span → Span
  | .mk st en ss se m cs =>
    match Span.assignSepList u v en cs with
    | none => .mk st en u v m cs
    | some cs' => .mk st en ss se m cs'

/-- Returns `some` of the updated children when the separator was pushed
into the last child (which must end exactly at the parent's end), `none`
when the parent itself must receive the separator. -/
def Span.assignSepList (u v parentEnd : Nat) : List Span → Option (List Span)
  | [] => none
  | [c] =>
    if c.endIndex = parentEnd then some [Span.assignSep u v c] else none
  | a :: b :: rest =>
    match Span.assignSepList u v parentEnd (b :: rest) with
    | none => none
    | some cs' => some (a :: cs')
end

mutual
/-- The Span constructor: build the children, normalize the start bound,
fail (`throw`) when a child ends past the parent's end, and assign each
inter-child gap as the separator of the deepest preceding span with no
suffix. -/
def Span.build : TsNode → Option Span
  | .mk nstart nend cns =>
    match Span.buildLoop nend cns nstart [] with
    | none => none
    | some (st, spans) => some (.mk st nend 0 0 SpanMod.reset spans)

def Span.buildLoop (endIdx : Nat) : List TsNode → Nat → List Span → Option (Nat × List Span)
  | [], st, acc => some (st, acc)
  | cn :: rest, st, acc =>
    match Span.build cn with
    | none => none
    | some childSpan =>
      let st' := if childSpan.startIndex < st then childSpan.startIndex else st
      if endIdx < childSpan.endIndex then none
      else
        let acc' :=
          match acc.getLast? with
          | none => acc
          | some previousChildSpan =>
            if previousChildSpan.endIndex < childSpan.startIndex then
              acc.dropLast ++
                [Span.assignSep previousChildSpan.endIndex childSpan.startIndex previousChildSpan]
            else acc
        Span.buildLoop endIdx rest st' (acc' ++ [childSpan])
end

/- ----------------------------------------------------------------------
Sorting of child spans.

Span._writeModifiedText() calls Sort.sortBy(sortedChildren,
x => x.modification.sortKey) from an external library; per the repository
documentation and the specification it is a stable sort in which entries
with an undefined sortKey preserve their relative order and come last.
---------------------------------------------------------------------- -/

/-- Lexicographic comparison of texts by character code. -/
def textLE : Text → Text → Bool
  | [], _ => true
  | _ :: _, [] => false
  | a :: as, b :: bs =>
    if a.toNat < b.toNat then true
    else if b.toNat < a.toNat then false
    else textLE as bs

theorem textLE_refl (a : Text) : textLE a a = true := by
  induction a with
  | nil => rfl
  | cons c rest ih => simp [textLE, ih]

theorem textLE_total (a b : Text) : textLE a b = true ∨ textLE b a = true := by
  induction a generalizing b with
  | nil => left; rfl
  | cons x as ih =>
    cases b with
    | nil => right; rfl
    | cons y bs =>
      rcases Nat.lt_trichotomy x.toNat y.toNat with h | h | h
      · left; simp [textLE, h]
      · rcases ih bs with h' | h'
        · left; simp [textLE, h, h']
        · right; simp [textLE, h, h']
      · right; simp [textLE, h]

theorem textLE_trans {a b c : Text} (h1 : textLE a b = true)
    (h2 : textLE b c = true) : textLE a c = true := by
  induction a generalizing b c with
  | nil => rfl
  | cons x as ih =>
    cases b with
    | nil => simp [textLE] at h1
    | cons y bs =>
      cases c with
      | nil => simp [textLE] at h2
      | cons z cs =>
        simp only [textLE] at h1 h2 ⊢
        rcases Nat.lt_trichotomy x.toNat y.toNat with hxy | hxy | hxy <;>
          rcases Nat.lt_trichotomy y.toNat z.toNat with hyz | hyz | hyz
        · simp [show x.toNat < z.toNat from by omega]
        · simp [show x.toNat < z.toNat from by omega]
        · simp [show ¬ y.toNat < z.toNat from by omega,
            show z.toNat < y.toNat from hyz] at h2
        · simp [show x.toNat < z.toNat from by omega]
        · simp only [show ¬ x.toNat < z.toNat from by omega, if_false,
            show ¬ z.toNat < x.toNat from by omega]
          simp only [show ¬ x.toNat < y.toNat from by omega, if_false,
            show ¬ y.toNat < x.toNat from by omega] at h1
          simp only [show ¬ y.toNat < z.toNat from by omega, if_false,
            show ¬ z.toNat < y.toNat from by omega] at h2
          exact ih h1 h2
        · simp [show ¬ y.toNat < z.toNat from by omega,
            show z.toNat < y.toNat from hyz] at h2
        · simp [show ¬ x.toNat < y.toNat from by omega,
            show y.toNat < x.toNat from hxy] at h1
        · simp [show ¬ x.toNat < y.toNat from by omega,
            show y.toNat < x.toNat from hxy] at h1
        · simp [show ¬ x.toNat < y.toNat from by omega,
            show y.toNat < x.toNat from hxy] at h1

/-- The key order used for sorting child spans: keys compare
lexicographically and an undefined key is greater than every defined key
(undefined-key entries come last). -/
def keyLE : Option Text → Option Text → Bool
  | none, none => true
  | none, some _ => false
  | some _, none => true
  | some a, some b => textLE a b

theorem keyLE_refl (a : Option Text) : keyLE a a = true := by
  cases a with
  | none => rfl
  | some t => exact textLE_refl t

theorem keyLE_total (a b : Option Text) : keyLE a b = true ∨ keyLE b a = true := by
  cases a <;> cases b <;> simp [keyLE]
  exact textLE_total _ _

theorem keyLE_trans {a b c : Option Text} (h1 : keyLE a b = true)
    (h2 : keyLE b c = true) : keyLE a c = true := by
  cases a <;> cases b <;> cases c <;> simp_all [keyLE]
  exact textLE_trans h1 h2

/-- The ordering of child spans by `modification.sortKey`. -/
def spanKeyLE (x y : Span) : Prop :=
  keyLE x.modification.sortKey y.modification.sortKey = true

instance : DecidableRel spanKeyLE := fun _ _ =>
  inferInstanceAs (Decidable (_ = true))

instance : IsTotal Span spanKeyLE :=
  ⟨fun x y => keyLE_total x.modification.sortKey y.modification.sortKey⟩

instance : IsTrans Span spanKeyLE :=
  ⟨fun _ _ _ h1 h2 => keyLE_trans h1 h2⟩

/-- Modelled from the spec: `Sort.sortBy(array, x => x.modification.sortKey)`
from the external node-core-library is not part of the analyzed sources;
per the specification it sorts stably by the sort key, entries with a
missing key preserving their order and coming last.  A stable insertion
sort by `spanKeyLE` realises exactly that. -/
def sortSpans (l : List Span) : List Span :=
  l.insertionSort spanKeyLE

theorem sortSpans_perm (l : List Span) : List.Perm (sortSpans l) l :=
  List.perm_insertionSort spanKeyLE l

theorem mem_sortSpans {c : Span} {l : List Span} (h : c ∈ sortSpans l) : c ∈ l :=
  (sortSpans_perm l).mem_iff.mp h

theorem sortSpans_sorted (l : List Span) : (sortSpans l).Pairwise spanKeyLE :=
  List.sorted_insertionSort spanKeyLE l

theorem filter_orderedInsert_key (k : Option Text) (x : Span) (l : List Span) :
    (List.orderedInsert spanKeyLE x l).filter (fun c => c.modification.sortKey == k) =
      if (x.modification.sortKey == k) = true then
        x :: l.filter (fun c => c.modification.sortKey == k)
      else l.filter (fun c => c.modification.sortKey == k) := by
  induction l with
  | nil =>
    simp only [List.orderedInsert, List.filter_cons, List.filter_nil]
  | cons b bs ih =>
    simp only [List.orderedInsert]
    by_cases hxb : spanKeyLE x b
    · rw [if_pos hxb]
      simp only [List.filter_cons]
    · rw [if_neg hxb]
      simp only [List.filter_cons]
      by_cases hpx : (x.modification.sortKey == k) = true
      · have hk : x.modification.sortKey = k := by simpa using hpx
        have hpb : ¬ ((b.modification.sortKey == k) = true) := by
          intro hcon
          have hbk : b.modification.sortKey = k := by simpa using hcon
          exact hxb (by unfold spanKeyLE; rw [hk, hbk]; exact keyLE_refl k)
        rw [if_neg hpb, ih, if_pos hpx, if_pos hpx, if_neg hpb]
      · rw [ih, if_neg hpx, if_neg hpx]

/-- Stability of the child-span sort: for every key value, the subsequence
of entries carrying that key is unchanged. -/
theorem sortSpans_stable (k : Option Text) (l : List Span) :
    (sortSpans l).filter (fun c => c.modification.sortKey == k) =
      l.filter (fun c => c.modification.sortKey == k) := by
  induction l with
  | nil => rfl
  | cons x xs ih =>
    show (List.orderedInsert spanKeyLE x (sortSpans xs)).filter _ = _
    rw [filter_orderedInsert_key, ih, List.filter_cons]

/- ----------------------------------------------------------------------
Span._writeModifiedText (the output StringBuilder becomes the returned
text; options.separatorOverride is the Option Text argument, whose
JavaScript truthiness test is optTruthy).
---------------------------------------------------------------------- -/

/-- JavaScript truthiness of a `string | undefined` value. -/
def optTruthy : Option Text → Bool
  | some t => !t.isEmpty
  | none => false

/-- `SpanModification.prefix` getter: the override when set, else the
span's own text. -/
def Span.modPre (s : Text) (sp : Span) : Text :=
  match sp.modification.preOverride with
  | some p => p
  | none => sp.preText s

/-- `SpanModification.suffix` getter: the override when set, else the
span's own text. -/
def Span.modSuf (s : Text) (sp : Span) : Text :=
  match sp.modification.sufOverride with
  | some p => p
  | none => sp.sufText s

theorem Span.sizeOf_children_lt (sp : Span) : sizeOf sp.children < sizeOf sp := by
  cases sp with
  | mk st en ss se m cs => simp [Span.children]

theorem Span.sizeOf_lt_of_mem_children {c : Span} {sp : Span}
    (h : c ∈ sp.children) : sizeOf c < sizeOf sp :=
  Nat.lt_trans (List.sizeOf_lt_of_mem h) sp.sizeOf_children_lt

mutual
/-- `Span._writeModifiedText(options)`.  The indexed loops over children
are expressed as list recursions: in the sorted branch every child but the
last is emitted with the first separator and the last child with the last
separator (`i < lastChildIndex ? firstSeparator : lastSeparator`); in the
override branch a child receives the inherited separatorOverride exactly
when it is the last child and the span's own separator is empty
(`i < lastChildIndex || this.separator` clears it). -/
def Span.writeModifiedText (s : Text) (sp : Span) (separatorOverride : Option Text) : Text :=
  Span.modPre s sp ++
  (if sp.modification.omitChildren then []
   else
     if sp.modification.sortChildren && decide (1 < sp.children.length) then
       let firstSeparator :=
         match sp.children with
         | [] => []
         | c :: _ => Span.getLastInnerSeparator s c
       let lastSeparator :=
         match sp.children.getLast? with
         | none => []
         | some c => Span.getLastInnerSeparator s c
       Span.writeSortedList s firstSeparator lastSeparator (sortSpans sp.children)
     else if optTruthy separatorOverride then
       Span.writeOverrideList s (!(Span.sepText s sp).isEmpty) separatorOverride sp.children
     else
       Span.writeList s separatorOverride sp.children) ++
  Span.modSuf s sp ++
  (if optTruthy separatorOverride then
     if !(Span.sepText s sp).isEmpty || sp.children.length == 0 then
       separatorOverride.getD []
     else []
   else
     if sp.modification.omitSeparatorAfter then [] else Span.sepText s sp)
termination_by (sizeOf sp, 0)
decreasing_by
  · refine Prod.Lex.left _ _ ?_
    rw [(sortSpans_perm sp.children).sizeOf_eq_sizeOf]
    exact sp.sizeOf_children_lt
  · exact Prod.Lex.left _ _ sp.sizeOf_children_lt
  · exact Prod.Lex.left _ _ sp.sizeOf_children_lt

/-- The sorted-branch loop: all children but the last receive the first
child's last inner separator as override, the last child receives the last
child's. -/
def Span.writeSortedList (s firstSeparator lastSeparator : Text) : List Span → Text
  | [] => []
  | [c] => Span.writeModifiedText s c (some lastSeparator)
  | c :: c2 :: rest =>
    Span.writeModifiedText s c (some firstSeparator) ++
      Span.writeSortedList s firstSeparator lastSeparator (c2 :: rest)
termination_by l => (sizeOf l, 1)
decreasing_by
  all_goals refine Prod.Lex.left _ _ ?_
  all_goals first | omega | (simp; omega) | simp

/-- The loop under an inherited separatorOverride: the override is cleared
for every child but the last, and also for the last child when the span
has its own separator. -/
def Span.writeOverrideList (s : Text) (sepNonempty : Bool)
    (separatorOverride : Option Text) : List Span → Text
  | [] => []
  | [c] => Span.writeModifiedText s c (if sepNonempty then none else separatorOverride)
  | c :: c2 :: rest =>
    Span.writeModifiedText s c none ++
      Span.writeOverrideList s sepNonempty separatorOverride (c2 :: rest)
termination_by l => (sizeOf l, 1)
decreasing_by
  all_goals refine Prod.Lex.left _ _ ?_
  all_goals first | omega | (simp; omega) | simp

/-- The plain loop: every child inherits the (falsy) separatorOverride. -/
def Span.writeList (s : Text) (separatorOverride : Option Text) : List Span → Text
  | [] => []
  | c :: rest =>
    Span.writeModifiedText s c separatorOverride ++
      Span.writeList s separatorOverride rest
termination_by l => (sizeOf l, 1)
decreasing_by
  all_goals refine Prod.Lex.left _ _ ?_
  all_goals first | omega | (simp; omega) | simp
end

/-- `Span.getModifiedText()`. -/
def Span.getModifiedText (s : Text) (sp : Span) : Text :=
  Span.writeModifiedText s sp none

/- ----------------------------------------------------------------------
AstDeclaration (unnamed/part_002).

Declarations and symbols are identified by numbers.  The parent links are
fixed at construction; a parent is always constructed before its child, so
ancestors carry smaller identifiers.  The per-declaration reference set
(_analyzedReferencedAstSymbolsSet) is a function from declaration ids to
insertion-ordered lists of symbol ids.
---------------------------------------------------------------------- -/

/-- The fixed shape of the declaration forest: parent links and the
astSymbol of each declaration. -/
structure DeclEnv : Type where
  parent : Nat → Option Nat
  sym : Nat → Nat
  parent_lt : ∀ d p, parent d = some p → p < d

/-- The early-return walk of `_notifyReferencedAstSymbol`:
`for (let current = this; current; current = current.parent)`, returning
true when some `current` already has the symbol in its set or is the
symbol's own declaration. -/
def chainBlocked (env : DeclEnv) (refs : Nat → List Nat) (s : Nat) (d : Nat) : Bool :=
  (refs d).contains s || (s == env.sym d) ||
    (match h : env.parent d with
     | some p => chainBlocked env refs s p
     | none => false)
termination_by d
decreasing_by exact env.parent_lt d p h

/-- The state change of `_notifyReferencedAstSymbol` (after its analyzed
guard): add the symbol to this declaration's set unless the walk returns
early. -/
def AstDeclaration.notifyReferencedAstSymbolStep (env : DeclEnv)
    (refs : Nat → List Nat) (d s : Nat) : Nat → List Nat :=
  if chainBlocked env refs s d then refs
  else fun d' => if d' = d then refs d ++ [s] else refs d'

/-- `AstDeclaration._notifyReferencedAstSymbol`: throws once
`this.astSymbol.analyzed` is set, else records the reference. -/
def AstDeclaration.notifyReferencedAstSymbol (env : DeclEnv) (analyzed : Bool)
    (refs : Nat → List Nat) (d s : Nat) : Except String (Nat → List Nat) :=
  if analyzed then
    .error "Program Bug: notifyReferencedAstSymbol() called after analysis is already complete"
  else
    .ok (AstDeclaration.notifyReferencedAstSymbolStep env refs d s)

/-- `AstDeclaration._notifyChildAttach`: checks parent identity, then the
analyzed flag, then pushes the child. -/
def AstDeclaration.notifyChildAttach (selfId : Nat) (selfAnalyzed : Bool)
    (analyzedChildren : List Nat) (childParent : Option Nat) (childId : Nat) :
    Except String (List Nat) :=
  if childParent ≠ some selfId then
    .error "Program Bug: Invalid call to notifyChildAttach()"
  else if selfAnalyzed then
    .error "Program Bug: _notifyChildAttach() called after analysis is already complete"
  else
    .ok (analyzedChildren ++ [childId])

/-- `AstDeclaration.children` getter: empty until the symbol is analyzed. -/
def AstDeclaration.childrenView (analyzed : Bool) (analyzedChildren : List Nat) : List Nat :=
  if analyzed then analyzedChildren else []

/-- `AstDeclaration.referencedAstSymbols` getter: empty until the symbol is
analyzed; the Set spread preserves insertion order. -/
def AstDeclaration.referencedAstSymbolsView (analyzed : Bool)
    (analyzedReferencedAstSymbolsSet : List Nat) : List Nat :=
  if analyzed then analyzedReferencedAstSymbolsSet else []

/-- Run a sequence of (declaration, symbol) reference notifications during
analysis (all symbols still unanalyzed). -/
def runRefOps (env : DeclEnv) : List (Nat × Nat) → (Nat → List Nat) → (Nat → List Nat)
  | [], refs => refs
  | (d, s) :: rest, refs =>
    runRefOps env rest (AstDeclaration.notifyReferencedAstSymbolStep env refs d s)

/-- The strict ancestors of a declaration, innermost first. -/
def strictAncestors (env : DeclEnv) (d : Nat) : List Nat :=
  match h : env.parent d with
  | none => []
  | some p => p :: strictAncestors env p
termination_by d
decreasing_by exact env.parent_lt d p h

/-- The declaration itself followed by its strict ancestors. -/
def selfAndAncestors (env : DeclEnv) (d : Nat) : List Nat :=
  d :: strictAncestors env d

/-- C7: once the astSymbol is analyzed, _notifyChildAttach and
_notifyReferencedAstSymbol both throw; _notifyChildAttach also throws
whenever the child's parent is not the receiver, analyzed or not. -/
theorem C7_freeze_after_analysis :
    (∀ (selfId : Nat) (children : List Nat) (childParent : Option Nat) (childId : Nat),
      ∃ e, AstDeclaration.notifyChildAttach selfId true children childParent childId = .error e) ∧
    (∀ (env : DeclEnv) (refs : Nat → List Nat) (d s : Nat),
      ∃ e, AstDeclaration.notifyReferencedAstSymbol env true refs d s = .error e) ∧
    (∀ (selfId : Nat) (selfAnalyzed : Bool) (children : List Nat)
        (childParent : Option Nat) (childId : Nat),
      childParent ≠ some selfId →
      ∃ e, AstDeclaration.notifyChildAttach selfId selfAnalyzed children childParent childId
        = .error e) := by
  refine ⟨?_, ?_, ?_⟩
  · intro selfId children childParent childId
    unfold AstDeclaration.notifyChildAttach
    by_cases h : childParent ≠ some selfId
    · exact ⟨_, by rw [if_pos h]⟩
    · exact ⟨_, by rw [if_neg h, if_pos rfl]⟩
  · intro env refs d s
    exact ⟨_, rfl⟩
  · intro selfId selfAnalyzed children childParent childId h
    exact ⟨_, by unfold AstDeclaration.notifyChildAttach; rw [if_pos h]⟩

/-- Witness for C7: concrete freeze and parent-mismatch failures. -/
theorem C7_freeze_after_analysis_witness :
    (∃ e, AstDeclaration.notifyChildAttach 0 true [] (some 0) 1 = .error e) ∧
    (∃ e, AstDeclaration.notifyChildAttach 0 false [] (some 2) 1 = .error e) := by
  refine ⟨C7_freeze_after_analysis.1 0 [] (some 0) 1, ?_⟩
  exact C7_freeze_after_analysis.2.2 0 false [] (some 2) 1 (by decide)

/-- C10: the children and referencedAstSymbols getters return empty lists
while the astSymbol is unanalyzed, whatever has been attached internally;
once analyzed they return the internally attached children (attachment
appends, preserving order) and the recorded referenced symbols. -/
theorem C10_visibility_gating :
    (∀ internalChildren internalRefs : List Nat,
      AstDeclaration.childrenView false internalChildren = [] ∧
      AstDeclaration.referencedAstSymbolsView false internalRefs = []) ∧
    (∀ internalChildren internalRefs : List Nat,
      AstDeclaration.childrenView true internalChildren = internalChildren ∧
      AstDeclaration.referencedAstSymbolsView true internalRefs = internalRefs) ∧
    (∀ (selfId : Nat) (children : List Nat) (childId : Nat),
      AstDeclaration.notifyChildAttach selfId false children (some selfId) childId
        = .ok (children ++ [childId])) := by
  refine ⟨fun _ _ => ⟨rfl, rfl⟩, fun _ _ => ⟨rfl, rfl⟩, ?_⟩
  intro selfId children childId
  unfold AstDeclaration.notifyChildAttach
  rw [if_neg (by simp), if_neg (by simp)]

/-- Witness for C10 at concrete values. -/
theorem C10_visibility_gating_witness :
    AstDeclaration.childrenView false [3, 4] = [] ∧
    AstDeclaration.childrenView true [3, 4] = [3, 4] := by
  exact ⟨(C10_visibility_gating.1 [3, 4] []).1, (C10_visibility_gating.2.1 [3, 4] []).1⟩

/- ----------------------------------------------------------------------
ApiItemContainerMixin.addMember (unnamed/part_003).

ApiItems are identified by numbers; their fixed attributes (name,
canonicalReference) live in an environment, while the mutable
ApiItem_parent slot is a function updated by addMember.  A thrown
exception is modelled by returning the unchanged state together with the
error message.
---------------------------------------------------------------------- -/

/-- The fixed attributes of an ApiItem. -/
structure ApiItemData : Type where
  canonicalReference : String
  name : String

/-- The mutable fields of one container that addMember touches. -/
structure ContainerState : Type where
  members : List Nat
  membersSorted : Bool
  membersByCanonicalReference : List (String × Nat)
  membersByName : Option (List (String × List Nat))
deriving DecidableEq

/-- `Map.has` on the canonical-reference lookup. -/
def mapHas (m : List (String × Nat)) (k : String) : Bool :=
  m.any (fun p => p.1 == k)

/-- `Map.set` on the canonical-reference lookup: replace an existing key,
else append. -/
def mapSet (m : List (String × Nat)) (k : String) (v : Nat) : List (String × Nat) :=
  if mapHas m k then m.map (fun p => if p.1 == k then (k, v) else p)
  else m ++ [(k, v)]

/-- `ApiItemContainerMixin.addMember(member)` on container `selfId`:
returns the updated container state and parent map, plus the error message
when it throws (in which case the state is the unchanged input). -/
def ApiItemContainerMixin.addMember (itemData : Nat → ApiItemData)
    (st : ContainerState) (itemParent : Nat → Option Nat)
    (selfId memberId : Nat) :
    (ContainerState × (Nat → Option Nat)) × Option String :=
  if mapHas st.membersByCanonicalReference (itemData memberId).canonicalReference then
    ((st, itemParent),
      some "Another member has already been added with the same name and canonicalReference")
  else
    match itemParent memberId with
    | some existingParent =>
      ((st, itemParent),
        some ("This item has already been added to another container: "
          ++ (itemData existingParent).name))
    | none =>
      (({ members := st.members ++ [memberId],
          membersByName := none,
          membersSorted := false,
          membersByCanonicalReference :=
            mapSet st.membersByCanonicalReference
              (itemData memberId).canonicalReference memberId },
        fun i => if i = memberId then some selfId else itemParent i), none)

/-- C8: addMember throws exactly when the member already has a parent
container or a member with the same canonicalReference was already added;
a throw leaves the container state and parent map unchanged, and a
successful call appends the member and makes the container its parent. -/
theorem C8_addMember_single_container
    (itemData : Nat → ApiItemData) (st : ContainerState)
    (itemParent : Nat → Option Nat) (selfId memberId : Nat) :
    (((ApiItemContainerMixin.addMember itemData st itemParent selfId memberId).2).isSome
      ↔ ((itemParent memberId).isSome ∨
          mapHas st.membersByCanonicalReference (itemData memberId).canonicalReference = true)) ∧
    (((ApiItemContainerMixin.addMember itemData st itemParent selfId memberId).2).isSome →
      (ApiItemContainerMixin.addMember itemData st itemParent selfId memberId).1
        = (st, itemParent)) ∧
    ((ApiItemContainerMixin.addMember itemData st itemParent selfId memberId).2 = none →
      let result := (ApiItemContainerMixin.addMember itemData st itemParent selfId memberId).1
      result.1.members = st.members ++ [memberId] ∧
      result.1.membersByCanonicalReference =
        mapSet st.membersByCanonicalReference
          (itemData memberId).canonicalReference memberId ∧
      result.1.membersByName = none ∧
      result.1.membersSorted = false ∧
      result.2 memberId = some selfId) := by
  unfold ApiItemContainerMixin.addMember
  by_cases hdup : mapHas st.membersByCanonicalReference (itemData memberId).canonicalReference
  · rw [if_pos hdup]
    refine ⟨by simp [hdup], fun _ => rfl, fun hc => by simp at hc⟩
  · rw [if_neg hdup]
    cases hp : itemParent memberId with
    | some existingParent =>
      refine ⟨by simp [hp, hdup], fun _ => rfl, fun hc => by simp at hc⟩
    | none =>
      refine ⟨by simp [hp, hdup], by simp, fun _ => ⟨rfl, rfl, rfl, rfl, by simp⟩⟩

/-- Witness for C8: a successful add at concrete values, and a rejected
second add of the same member to another container. -/
theorem C8_addMember_single_container_witness :
    ((ApiItemContainerMixin.addMember
        (fun _ => ⟨"(x:class)", "x"⟩)
        ⟨[], true, [], none⟩ (fun _ => none) 0 1).2 = none) ∧
    ((ApiItemContainerMixin.addMember
        (fun _ => ⟨"(x:class)", "x"⟩)
        ⟨[], true, [], none⟩ (fun _ => some 5) 0 1).2).isSome = true := by
  constructor
  · rfl
  · exact (C8_addMember_single_container
      (fun _ => ⟨"(x:class)", "x"⟩) ⟨[], true, [], none⟩
      (fun _ => some 5) 0 1).1.mpr (Or.inl rfl)

/- ----------------------------------------------------------------------
ReviewFileGenerator._getAedocSynopsis / _writeLineAsComment
(cli/RunAction.ts).
---------------------------------------------------------------------- -/

/-- The ReleaseTag enumeration. -/
inductive ReleaseTag : Type where
  | None
  | Internal
  | Alpha
  | Beta
  | Public
deriving DecidableEq, Repr

/-- The DeclarationMetadata fields read by _getAedocSynopsis;
`tsdocComment` and its `deprecatedBlock` are modelled by their presence. -/
structure DeclarationMetadata : Type where
  isSealed : Bool
  isVirtual : Bool
  isOverride : Bool
  isEventProperty : Bool
  hasTsdocComment : Bool
  hasDeprecatedBlock : Bool
  needsDocumentation : Bool
deriving DecidableEq, Repr

/-- The SymbolMetadata fields read by _getAedocSynopsis. -/
structure SymbolMetadata : Type where
  releaseTag : ReleaseTag
  releaseTagSameAsParent : Bool
deriving DecidableEq, Repr

/-- `ReviewFileGenerator._writeLineAsComment`. -/
def writeLineAsComment (line : String) : String :=
  "// " ++ line ++ "\n"

/-- `ReviewFileGenerator._getAedocSynopsis` (the collector lookups are
replaced by the two metadata records they fetch). -/
def getAedocSynopsis (declarationMetadata : DeclarationMetadata)
    (symbolMetadata : SymbolMetadata) : String :=
  let footerParts : List String := []
  let footerParts :=
    if !symbolMetadata.releaseTagSameAsParent then
      match symbolMetadata.releaseTag with
      | .Internal => footerParts ++ ["@internal"]
      | .Alpha => footerParts ++ ["@alpha"]
      | .Beta => footerParts ++ ["@beta"]
      | .Public => footerParts ++ ["@public"]
      | .None => footerParts
    else footerParts
  let footerParts :=
    if declarationMetadata.isSealed then footerParts ++ ["@sealed"] else footerParts
  let footerParts :=
    if declarationMetadata.isVirtual then footerParts ++ ["@virtual"] else footerParts
  let footerParts :=
    if declarationMetadata.isOverride then footerParts ++ ["@override"] else footerParts
  let footerParts :=
    if declarationMetadata.isEventProperty then footerParts ++ ["@eventproperty"]
    else footerParts
  let footerParts :=
    if declarationMetadata.hasTsdocComment then
      if declarationMetadata.hasDeprecatedBlock then footerParts ++ ["@deprecated"]
      else footerParts
    else footerParts
  let footerParts :=
    if declarationMetadata.needsDocumentation then footerParts ++ ["(undocumented)"]
    else footerParts
  if footerParts.length > 0 then
    writeLineAsComment (String.intercalate " " footerParts)
  else ""

/-- The token sequence claimed by the spec: release tag (omitted when
releaseTagSameAsParent), then the modifier tags in fixed order. -/
def synopsisTokens (declarationMetadata : DeclarationMetadata)
    (symbolMetadata : SymbolMetadata) : List String :=
  (if !symbolMetadata.releaseTagSameAsParent then
    match symbolMetadata.releaseTag with
    | .Internal => ["@internal"]
    | .Alpha => ["@alpha"]
    | .Beta => ["@beta"]
    | .Public => ["@public"]
    | .None => []
  else []) ++
  (if declarationMetadata.isSealed then ["@sealed"] else []) ++
  (if declarationMetadata.isVirtual then ["@virtual"] else []) ++
  (if declarationMetadata.isOverride then ["@override"] else []) ++
  (if declarationMetadata.isEventProperty then ["@eventproperty"] else []) ++
  (if declarationMetadata.hasTsdocComment && declarationMetadata.hasDeprecatedBlock then
    ["@deprecated"] else []) ++
  (if declarationMetadata.needsDocumentation then ["(undocumented)"] else [])

/-- C5: the AEDoc synopsis is empty when no token applies, and otherwise is
exactly one single-line comment holding the space-separated applicable
tokens in the fixed order: release tag (omitted when
releaseTagSameAsParent), @sealed, @virtual, @override, @eventproperty,
@deprecated, (undocumented). -/
theorem C5_getAedocSynopsis_spec (declarationMetadata : DeclarationMetadata)
    (symbolMetadata : SymbolMetadata) :
    getAedocSynopsis declarationMetadata symbolMetadata =
      if synopsisTokens declarationMetadata symbolMetadata = [] then ""
      else "// " ++
        String.intercalate " " (synopsisTokens declarationMetadata symbolMetadata)
        ++ "\n" := by
  obtain ⟨s1, s2, s3, s4, s5, s6, s7⟩ := declarationMetadata
  obtain ⟨tag, same⟩ := symbolMetadata
  unfold getAedocSynopsis synopsisTokens writeLineAsComment
  cases same <;> cases tag <;>
    cases s1 <;> cases s2 <;> cases s3 <;> cases s4 <;>
    cases s5 <;> cases s6 <;> cases s7 <;> rfl

/- ----------------------------------------------------------------------
The VariableDeclaration case of ReviewFileGenerator._modifySpan
(cli/RunAction.ts).
---------------------------------------------------------------------- -/

/-- The parts of a ts.VariableDeclarationList the branch reads:
list.getStart() and the getStart() of each of its declarations. -/
structure VariableDeclarationListNode : Type where
  listStart : Nat
  declarationStarts : List Nat
deriving Repr

/-- Modelled from the spec: `TypeScriptHelpers.matchAncestor(span.node,
[VariableDeclarationList, VariableDeclaration])` lives in
analyzer/TypeScriptHelpers.ts, which is not among the analyzed sources;
per the specification it looks upwards in the ts.Node tree for the
enclosing VariableDeclarationList of the VariableDeclaration node,
returning undefined when the ancestry does not match. -/
def matchAncestorVariableDeclarationList
    (enclosingList : Option VariableDeclarationListNode) :
    Option VariableDeclarationListNode :=
  enclosingList

/-- The `case ts.SyntaxKind.VariableDeclaration` branch of `_modifySpan`
for a span with no parent: copy the declaration-list keyword text from the
source, prepend the prefix and set the suffix.  `declStart0` below is
`list.declarations[0].getStart()`; JavaScript would crash on an empty
declarations array, modelled as an error. -/
def modifySpanVariableDeclaration (s : Text)
    (enclosingList : Option VariableDeclarationListNode)
    (modification : SpanMod) (spanPre : Text) : Except String SpanMod :=
  match matchAncestorVariableDeclarationList enclosingList with
  | none => .error "Unsupported variable declaration"
  | some list =>
    match list.declarationStarts with
    | [] => .error "TypeError: list.declarations[0] is undefined"
    | declStart0 :: _ =>
      let listKeyword := textSlice s list.listStart declStart0
      let currentPre :=
        match modification.preOverride with
        | some p => p
        | none => spanPre
      .ok { modification with
        preOverride := some ("declare ".toList ++ listKeyword ++ currentPre),
        sufOverride := some [';'] }

/-- C6: for a parentless VariableDeclaration span, the rewrite always sets
the modification prefix to "declare " followed by the declaration-list
keyword text copied literally from the source (the text from the start of
the VariableDeclarationList to the start of its first declaration),
prepended to the existing effective prefix, and sets the suffix to ";" —
unconditionally, whatever the surrounding source text contains. -/
theorem C6_modifySpan_variableDeclaration (s : Text)
    (list : VariableDeclarationListNode) (modification : SpanMod)
    (spanPre : Text) (declStart0 : Nat) (rest : List Nat)
    (hd : list.declarationStarts = declStart0 :: rest) :
    modifySpanVariableDeclaration s (some list) modification spanPre =
      .ok { modification with
        preOverride := some ("declare ".toList
          ++ textSlice s list.listStart declStart0
          ++ (match modification.preOverride with
              | some p => p
              | none => spanPre)),
        sufOverride := some [';'] } := by
  unfold modifySpanVariableDeclaration matchAncestorVariableDeclarationList
  simp only [hd]

/-- Witness for C6: a source that already contains a declare modifier
("declare const x = 1;"): the branch still prepends "declare " to the
copied "const " keyword text. -/
theorem C6_modifySpan_variableDeclaration_witness :
    modifySpanVariableDeclaration
      "declare const x = 1;".toList
      (some ⟨8, [14]⟩) SpanMod.reset "x = 1".toList =
      .ok { SpanMod.reset with
        preOverride := some "declare const x = 1".toList,
        sufOverride := some [';'] } := by
  have h := C6_modifySpan_variableDeclaration
    "declare const x = 1;".toList ⟨8, [14]⟩ SpanMod.reset "x = 1".toList 14 [] rfl
  rw [h]
  rfl

theorem natList_contains_iff (l : List Nat) (a : Nat) :
    l.contains a = true ↔ a ∈ l := by
  simp [List.contains_eq_any_beq]

theorem mem_strictAncestors_lt (env : DeclEnv) :
    ∀ d a, a ∈ strictAncestors env d → a < d := by
  intro d
  induction d using Nat.strong_induction_on with
  | _ d ih =>
    intro a ha
    rw [strictAncestors] at ha
    split at ha
    · exact absurd ha (List.not_mem_nil a)
    · rename_i p hp
      have hpd : p < d := env.parent_lt d p hp
      rcases List.mem_cons.mp ha with h | h
      · omega
      · exact Nat.lt_trans (ih p hpd a h) hpd

theorem chainBlocked_false_iff (env : DeclEnv) (refs : Nat → List Nat) (s : Nat) :
    ∀ d, chainBlocked env refs s d = false ↔
      ∀ a ∈ selfAndAncestors env d, s ∉ refs a ∧ s ≠ env.sym a := by
  intro d
  induction d using Nat.strong_induction_on with
  | _ d ih =>
    rw [chainBlocked]
    unfold selfAndAncestors
    constructor
    · intro h a ha
      simp only [Bool.or_eq_false_iff] at h
      obtain ⟨⟨hc, hsym⟩, hrest⟩ := h
      rcases List.mem_cons.mp ha with rfl | ha'
      · refine ⟨fun hmem => ?_, by simpa using hsym⟩
        rw [(natList_contains_iff (refs a) s).mpr hmem] at hc
        cases hc
      · rw [strictAncestors] at ha'
        split at ha'
        · exact absurd ha' (List.not_mem_nil a)
        · rename_i p hp
          split at hrest
          · rename_i p' hp'
            rw [hp] at hp'
            cases hp'
            exact ((ih p (env.parent_lt d p hp)).mp hrest) a ha'
          · rename_i hnone
            rw [hp] at hnone
            cases hnone
    · intro h
      simp only [Bool.or_eq_false_iff]
      have hd := h d (by simp)
      refine ⟨⟨?_, by simpa using hd.2⟩, ?_⟩
      · simpa [List.contains_eq_any_beq] using hd.1
      · split
        · rename_i p hp
          refine (ih p (env.parent_lt d p hp)).mpr ?_
          intro a ha
          refine h a ?_
          rw [List.mem_cons]
          right
          rw [strictAncestors, hp]
          exact ha
        · rfl

theorem runRefOps_append (env : DeclEnv) (l1 l2 : List (Nat × Nat))
    (refs : Nat → List Nat) :
    runRefOps env (l1 ++ l2) refs = runRefOps env l2 (runRefOps env l1 refs) := by
  induction l1 generalizing refs with
  | nil => rfl
  | cons op rest ih =>
    obtain ⟨d, s⟩ := op
    rw [List.cons_append, runRefOps, runRefOps, ih]

theorem runRefOps_inv (env : DeclEnv) (ops : List (Nat × Nat))
    (hord : ops.Pairwise (fun x y => y.1 ∉ strictAncestors env x.1)) :
    (∀ d s, s ∈ runRefOps env ops (fun _ => []) d →
      ∀ a ∈ selfAndAncestors env d, s ≠ env.sym a) ∧
    (∀ d, ∀ a ∈ strictAncestors env d, ∀ s,
      s ∈ runRefOps env ops (fun _ => []) d → s ∉ runRefOps env ops (fun _ => []) a) ∧
    (∀ d, runRefOps env ops (fun _ => []) d ≠ [] → d ∈ ops.map Prod.fst) := by
  induction ops using List.reverseRecOn with
  | nil =>
    refine ⟨fun d s hs => absurd hs (List.not_mem_nil s),
      fun d a _ s hs => absurd hs (List.not_mem_nil s),
      fun d hd => absurd rfl hd⟩
  | append_singleton l op ihl =>
    obtain ⟨d0, s0⟩ := op
    rw [List.pairwise_append] at hord
    obtain ⟨hpl, _, hlast⟩ := hord
    obtain ⟨ih1, ih2, ih3⟩ := ihl hpl
    rw [runRefOps_append]
    set refsl := runRefOps env l (fun _ => []) with hrefsl
    show
      (∀ d s, s ∈ runRefOps env [(d0, s0)] refsl d → _) ∧
      (∀ d, ∀ a ∈ strictAncestors env d, ∀ s,
        s ∈ runRefOps env [(d0, s0)] refsl d → s ∉ runRefOps env [(d0, s0)] refsl a) ∧
      (∀ d, runRefOps env [(d0, s0)] refsl d ≠ [] → _)
    have hstep : runRefOps env [(d0, s0)] refsl =
        AstDeclaration.notifyReferencedAstSymbolStep env refsl d0 s0 := rfl
    rw [hstep]
    unfold AstDeclaration.notifyReferencedAstSymbolStep
    by_cases hb : chainBlocked env refsl s0 d0 = true
    · rw [if_pos hb]
      exact ⟨ih1, ih2, fun d hd => by
        rw [List.map_append]
        exact List.mem_append_left _ (ih3 d hd)⟩
    · rw [if_neg hb]
      have hfree := (chainBlocked_false_iff env refsl s0 d0).mp
        (Bool.not_eq_true _ ▸ hb)
      refine ⟨?_, ?_, ?_⟩
      · intro d s hs a ha
        by_cases hdd : d = d0
        · subst hdd
          rw [if_pos rfl] at hs
          rcases List.mem_append.mp hs with h | h
          · exact ih1 d s h a ha
          · rw [List.mem_singleton] at h
            subst h
            exact (hfree a ha).2
        · rw [if_neg hdd] at hs
          exact ih1 d s hs a ha
      · intro d a ha s hs
        have had : a < d := mem_strictAncestors_lt env d a ha
        by_cases hdd : d = d0
        · subst hdd
          have had0 : a ≠ d := by omega
          rw [if_pos rfl] at hs
          rw [if_neg had0]
          rcases List.mem_append.mp hs with h | h
          · exact ih2 d a ha s h
          · rw [List.mem_singleton] at h
            subst h
            exact (hfree a (List.mem_cons_of_mem _ ha)).1
        · rw [if_neg hdd] at hs
          by_cases hda : a = d0
          · exfalso
            subst hda
            have hne : refsl d ≠ [] := fun hnil => by
              rw [hnil] at hs
              exact absurd hs (List.not_mem_nil s)
            obtain ⟨x, hx, hx1⟩ := List.mem_map.mp (ih3 d hne)
            exact hlast x hx (a, s0) (List.mem_singleton_self _) (hx1 ▸ ha)
          · rw [if_neg hda]
            exact ih2 d a ha s hs
      · intro d hd
        rw [List.map_append]
        by_cases hdd : d = d0
        · subst hdd
          exact List.mem_append_right _ (by simp)
        · rw [if_neg hdd] at hd
          exact List.mem_append_left _ (ih3 d hd)

/-- C4: under the analyzer's root-first traversal order (references are
recorded on a declaration only before any of its strict descendants
receive theirs), the referenced set of a declaration never contains its
own or an ancestor's astSymbol, never overlaps an ancestor's referenced
set, and re-adding a symbol already present is a no-op. -/
theorem C4_reference_edge_minimality (env : DeclEnv) (ops : List (Nat × Nat))
    (hord : ops.Pairwise (fun x y => y.1 ∉ strictAncestors env x.1)) :
    (∀ d s, s ∈ runRefOps env ops (fun _ => []) d →
      ∀ a ∈ selfAndAncestors env d, s ≠ env.sym a) ∧
    (∀ d, ∀ a ∈ strictAncestors env d, ∀ s,
      s ∈ runRefOps env ops (fun _ => []) d →
      s ∉ runRefOps env ops (fun _ => []) a) ∧
    (∀ (refs : Nat → List Nat) (d s : Nat), s ∈ refs d →
      AstDeclaration.notifyReferencedAstSymbolStep env refs d s = refs) := by
  obtain ⟨h1, h2, _⟩ := runRefOps_inv env ops hord
  refine ⟨h1, h2, ?_⟩
  intro refs d s hs
  unfold AstDeclaration.notifyReferencedAstSymbolStep
  rw [if_pos]
  rw [chainBlocked]
  simp only [Bool.or_eq_true]
  left; left
  exact (natList_contains_iff (refs d) s).mpr hs

/-- The concrete two-level declaration forest used by the C4 witness:
declaration 1 is nested in declaration 0, symbols are d + 100. -/
def witnessDeclEnv : DeclEnv where
  parent := fun d => if d = 1 then some 0 else none
  sym := fun d => d + 100
  parent_lt := by
    intro d p hp
    by_cases h1 : d = 1
    · subst h1
      simp at hp
      omega
    · simp [h1] at hp

/-- Witness for C4: a root-first recording sequence on the two-level
forest; the nested declaration drops the symbol already recorded on its
parent and the parent's own symbol, and keeps the fresh one. -/
theorem C4_reference_edge_minimality_witness :
    (∀ d s, s ∈ runRefOps witnessDeclEnv [(0, 7), (1, 7), (1, 100), (1, 8)] (fun _ => []) d →
      ∀ a ∈ selfAndAncestors witnessDeclEnv d, s ≠ witnessDeclEnv.sym a) ∧
    runRefOps witnessDeclEnv [(0, 7), (1, 7), (1, 100), (1, 8)] (fun _ => []) 0 = [7] ∧
    runRefOps witnessDeclEnv [(0, 7), (1, 7), (1, 100), (1, 8)] (fun _ => []) 1 = [8] := by
  have hanc0 : strictAncestors witnessDeclEnv 0 = [] := by
    rw [strictAncestors]
    rfl
  have hanc1 : strictAncestors witnessDeclEnv 1 = [0] := by
    rw [strictAncestors]
    show 0 :: strictAncestors witnessDeclEnv 0 = [0]
    rw [hanc0]
  have hord : List.Pairwise
      (fun x y => y.1 ∉ strictAncestors witnessDeclEnv x.1)
      [(0, 7), (1, 7), (1, 100), (1, 8)] := by
    refine List.Pairwise.cons ?_ (List.Pairwise.cons ?_
      (List.Pairwise.cons ?_ (List.Pairwise.cons ?_ List.Pairwise.nil)))
    · intro y hy; rw [hanc0]; exact List.not_mem_nil _
    · intro y hy
      rw [hanc1]
      fin_cases hy <;> simp
    · intro y hy
      rw [hanc1]
      fin_cases hy <;> simp
    · intro y hy; exact absurd hy (List.not_mem_nil y)
  refine ⟨(C4_reference_edge_minimality witnessDeclEnv _ hord).1, ?_, ?_⟩ <;>
    simp [runRefOps, AstDeclaration.notifyReferencedAstSymbolStep, chainBlocked,
      witnessDeclEnv]

theorem keyLE_none_eq {k : Option Text} (h : keyLE none k = true) : k = none := by
  cases k with
  | none => rfl
  | some t => simp [keyLE] at h

theorem lastInnerSepList_eq_getLast (s : Text) (cs : List Span) :
    Span.lastInnerSepList s cs =
      match cs.getLast? with
      | some c => Span.getLastInnerSeparator s c
      | none => [] := by
  induction cs with
  | nil => rfl
  | cons a rest ih =>
    cases rest with
    | nil => rfl
    | cons b rest' =>
      rw [Span.lastInnerSepList, ih, List.getLast?_cons_cons]

theorem getLastInnerSeparator_eq (s : Text) (sp : Span) :
    Span.getLastInnerSeparator s sp =
      if Span.sepText s sp ≠ [] then Span.sepText s sp
      else
        match sp.children.getLast? with
        | some c => Span.getLastInnerSeparator s c
        | none => [] := by
  cases sp with
  | mk st en ss se m cs =>
    rw [Span.getLastInnerSeparator, lastInnerSepList_eq_getLast]
    rfl

theorem pairwise_split_nones (l : List Span) (h : l.Pairwise spanKeyLE) :
    l = l.filter (fun c => !(c.modification.sortKey == none)) ++
      l.filter (fun c => c.modification.sortKey == none) := by
  induction l with
  | nil => rfl
  | cons x rest ih =>
    rw [List.pairwise_cons] at h
    obtain ⟨hx, hrest⟩ := h
    by_cases hk : x.modification.sortKey = none
    · have hall : ∀ y ∈ rest, y.modification.sortKey = none := by
        intro y hy
        have := hx y hy
        unfold spanKeyLE at this
        rw [hk] at this
        exact keyLE_none_eq this
      have h1 : (x :: rest).filter (fun c => !(c.modification.sortKey == none)) = [] := by
        rw [List.filter_eq_nil_iff]
        intro a ha
        rcases List.mem_cons.mp ha with rfl | ha'
        · simp [hk]
        · simp [hall a ha']
      have h2 : (x :: rest).filter (fun c => c.modification.sortKey == none) = x :: rest := by
        rw [List.filter_eq_self]
        intro a ha
        rcases List.mem_cons.mp ha with rfl | ha'
        · simp [hk]
        · simp [hall a ha']
      rw [h1, h2, List.nil_append]
    · rw [List.filter_cons_of_pos (by simp [hk]), List.filter_cons_of_neg (by simp [hk]),
        List.cons_append]
      exact congrArg (x :: ·) (ih hrest)

/-- C2: with sortChildren set, omitChildren clear and at least two
children, _writeModifiedText emits the children in stable sortKey order
(undefined keys keep their relative order and come last), every sorted
child but the last carrying the first child's last inner separator as its
separator override and the last sorted child carrying the last child's;
the last inner separator of a span is its own separator when nonempty,
else recursively that of its last child, else empty. -/
theorem C2_sorted_emission (s : Text) (sp : Span) (separatorOverride : Option Text)
    (hsort : sp.modification.sortChildren = true)
    (homit : sp.modification.omitChildren = false)
    (hlen : 1 < sp.children.length) :
    (Span.writeModifiedText s sp separatorOverride =
      Span.modPre s sp ++
      Span.writeSortedList s
        (match sp.children with
         | [] => []
         | c :: _ => Span.getLastInnerSeparator s c)
        (match sp.children.getLast? with
         | none => []
         | some c => Span.getLastInnerSeparator s c)
        (sortSpans sp.children) ++
      Span.modSuf s sp ++
      (if optTruthy separatorOverride then
         if !(Span.sepText s sp).isEmpty || sp.children.length == 0 then
           separatorOverride.getD []
         else []
       else
         if sp.modification.omitSeparatorAfter then [] else Span.sepText s sp)) ∧
    List.Perm (sortSpans sp.children) sp.children ∧
    (sortSpans sp.children).Pairwise spanKeyLE ∧
    (∀ k, (sortSpans sp.children).filter (fun c => c.modification.sortKey == k) =
      sp.children.filter (fun c => c.modification.sortKey == k)) ∧
    (sortSpans sp.children =
      (sortSpans sp.children).filter (fun c => !(c.modification.sortKey == none)) ++
      sp.children.filter (fun c => c.modification.sortKey == none)) ∧
    (∀ sp' : Span,
      Span.getLastInnerSeparator s sp' =
        if Span.sepText s sp' ≠ [] then Span.sepText s sp'
        else
          match sp'.children.getLast? with
          | some c => Span.getLastInnerSeparator s c
          | none => []) := by
  refine ⟨?_, sortSpans_perm sp.children, sortSpans_sorted sp.children,
    fun k => sortSpans_stable k sp.children, ?_, getLastInnerSeparator_eq s⟩
  · rw [Span.writeModifiedText, homit, hsort]
    simp [hlen]
  · rw [← sortSpans_stable none sp.children]
    exact pairwise_split_nones (sortSpans sp.children) (sortSpans_sorted sp.children)

/-- A child span with sort key "b", covering source range before its
sibling. -/
def c2WitA : Span := Span.mk 0 1 1 2 { SpanMod.reset with sortKey := some ['b'] } []

/-- A child span with sort key "a". -/
def c2WitB : Span := Span.mk 2 3 0 0 { SpanMod.reset with sortKey := some ['a'] } []

/-- A span with sortChildren set over the two children above. -/
def c2WitSpan : Span :=
  Span.mk 0 3 0 0 { SpanMod.reset with sortChildren := true } [c2WitA, c2WitB]

/-- Witness for C2: the hypotheses hold at the concrete span, the sort is
a permutation (by the theorem), and it concretely swaps the two children
into key order. -/
theorem C2_sorted_emission_witness :
    (c2WitSpan.modification.sortChildren = true ∧
     c2WitSpan.modification.omitChildren = false ∧
     1 < c2WitSpan.children.length) ∧
    List.Perm (sortSpans c2WitSpan.children) c2WitSpan.children ∧
    sortSpans c2WitSpan.children = [c2WitB, c2WitA] :=
  ⟨⟨rfl, rfl, by decide⟩,
   (C2_sorted_emission ['u'] c2WitSpan none rfl rfl (by decide)).2.1,
   by rfl⟩

/- ----------------------------------------------------------------------
C9: the bounds normalization and the bound check of the Span constructor.
---------------------------------------------------------------------- -/

theorem buildLoop_none_of_bad (en : Nat) :
    ∀ (cns : List TsNode) (st : Nat) (acc : List Span),
      (∃ c ∈ cns, Span.build c = none ∨
        ∃ csp, Span.build c = some csp ∧ en < csp.endIndex) →
      Span.buildLoop en cns st acc = none := by
  intro cns
  induction cns with
  | nil => intro st acc h; obtain ⟨c, hc, _⟩ := h; exact absurd hc (List.not_mem_nil c)
  | cons cn rest ih =>
    intro st acc h
    obtain ⟨c, hc, hbad⟩ := h
    rw [Span.buildLoop]
    rcases List.mem_cons.mp hc with rfl | hc'
    · rcases hbad with hnone | ⟨csp, hsome, hgt⟩
      · rw [hnone]
      · rw [hsome]
        simp only
        rw [if_pos hgt]
    · cases hbuild : Span.build cn with
      | none => rfl
      | some csp =>
        simp only
        by_cases hend : en < csp.endIndex
        · rw [if_pos hend]
        · rw [if_neg hend]
          exact ih _ _ ⟨c, hc', hbad⟩

theorem buildLoop_ok_of_bounded (en : Nat) :
    ∀ (cns : List TsNode) (st : Nat) (acc : List Span),
      (∀ c ∈ cns, ∃ csp, Span.build c = some csp ∧ csp.endIndex ≤ en) →
      ∃ st' spans, Span.buildLoop en cns st acc = some (st', spans) ∧
        st' ≤ st ∧
        (∀ c ∈ cns, ∀ csp, Span.build c = some csp → st' ≤ csp.startIndex) := by
  intro cns
  induction cns with
  | nil =>
    intro st acc _
    exact ⟨st, acc, rfl, Nat.le_refl st, fun c hc => absurd hc (List.not_mem_nil c)⟩
  | cons cn rest ih =>
    intro st acc h
    obtain ⟨csp, hsome, hle⟩ := h cn (by simp)
    rw [Span.buildLoop, hsome]
    simp only
    rw [if_neg (by omega)]
    set st1 := if csp.startIndex < st then csp.startIndex else st with hst1
    obtain ⟨st', spans, hloop, hle', hstart⟩ :=
      ih st1 _ (fun c hc => h c (List.mem_cons_of_mem cn hc))
    refine ⟨st', spans, hloop, ?_, ?_⟩
    · have : st1 ≤ st := by rw [hst1]; split <;> omega
      omega
    · intro c hc csp' hcsp'
      rcases List.mem_cons.mp hc with rfl | hc'
      · rw [hsome] at hcsp'
        cases hcsp'
        have : st1 ≤ csp.startIndex := by rw [hst1]; split <;> omega
        omega
      · exact hstart c hc' csp' hcsp'

/-- C9: constructing a Span fails with the program-bug error when some
child span ends past the parent's end, while a child span starting before
the parent's start is accepted, the parent's startIndex being lowered to
cover it (and never raised). -/
theorem C9_span_construction_bounds (nstart nend : Nat) (cns : List TsNode) :
    ((∃ c ∈ cns, ∃ csp, Span.build c = some csp ∧ nend < csp.endIndex) →
      Span.build (.mk nstart nend cns) = none) ∧
    ((∀ c ∈ cns, ∃ csp, Span.build c = some csp ∧ csp.endIndex ≤ nend) →
      ∃ sp, Span.build (.mk nstart nend cns) = some sp ∧
        sp.endIndex = nend ∧
        sp.startIndex ≤ nstart ∧
        (∀ c ∈ cns, ∀ csp, Span.build c = some csp →
          sp.startIndex ≤ csp.startIndex)) := by
  constructor
  · intro ⟨c, hc, csp, hsome, hgt⟩
    rw [Span.build]
    rw [buildLoop_none_of_bad nend cns nstart []
      ⟨c, hc, Or.inr ⟨csp, hsome, hgt⟩⟩]
  · intro h
    obtain ⟨st', spans, hloop, hle, hstart⟩ :=
      buildLoop_ok_of_bounded nend cns nstart [] h
    refine ⟨.mk st' nend 0 0 SpanMod.reset spans, ?_, rfl, hle, hstart⟩
    rw [Span.build, hloop]

/-- Witness for C9: a child reaching past the parent's end aborts the
construction; a child starting before the parent's start widens it. -/
theorem C9_span_construction_bounds_witness :
    Span.build (.mk 0 3 [.mk 1 5 []]) = none ∧
    (∃ sp, Span.build (.mk 4 9 [.mk 2 6 []]) = some sp ∧
      sp.endIndex = 9 ∧ sp.startIndex ≤ 4 ∧
      (∀ c ∈ [TsNode.mk 2 6 []], ∀ csp, Span.build c = some csp →
        sp.startIndex ≤ csp.startIndex)) := by
  constructor
  · exact (C9_span_construction_bounds 0 3 [.mk 1 5 []]).1
      ⟨.mk 1 5 [], by simp, .mk 1 5 0 0 SpanMod.reset [], by rfl, by decide⟩
  · exact (C9_span_construction_bounds 4 9 [.mk 2 6 []]).2
      (by intro c hc
          simp at hc
          subst hc
          exact ⟨.mk 2 6 0 0 SpanMod.reset [], by rfl, by decide⟩)

/- ----------------------------------------------------------------------
C1: the Span round-trip.  Well-formedness of a syntax tree (children in
source order inside the parent's extent) and supporting lemmas about the
separator assignment of the constructor.
---------------------------------------------------------------------- -/

@[simp] theorem Span.startIndex_mk (st en ss se : Nat) (m : SpanMod) (cs : List Span) :
    (Span.mk st en ss se m cs).startIndex = st := rfl

@[simp] theorem Span.endIndex_mk (st en ss se : Nat) (m : SpanMod) (cs : List Span) :
    (Span.mk st en ss se m cs).endIndex = en := rfl

@[simp] theorem Span.sepStartIndex_mk (st en ss se : Nat) (m : SpanMod) (cs : List Span) :
    (Span.mk st en ss se m cs).sepStartIndex = ss := rfl

@[simp] theorem Span.sepEndIndex_mk (st en ss se : Nat) (m : SpanMod) (cs : List Span) :
    (Span.mk st en ss se m cs).sepEndIndex = se := rfl

@[simp] theorem Span.children_mk (st en ss se : Nat) (m : SpanMod) (cs : List Span) :
    (Span.mk st en ss se m cs).children = cs := rfl

@[simp] theorem TsNode.start_mk (st en : Nat) (cs : List TsNode) :
    (TsNode.mk st en cs).start = st := rfl

@[simp] theorem TsNode.stop_mk (st en : Nat) (cs : List TsNode) :
    (TsNode.mk st en cs).stop = en := rfl

@[simp] theorem TsNode.childList_mk (st en : Nat) (cs : List TsNode) :
    (TsNode.mk st en cs).children = cs := rfl

theorem Span.getTextList_append (s : Text) (l1 l2 : List Span) :
    Span.getTextList s (l1 ++ l2) = Span.getTextList s l1 ++ Span.getTextList s l2 := by
  induction l1 with
  | nil => rfl
  | cons c rest ih => rw [List.cons_append, Span.getTextList, Span.getTextList, ih,
      List.append_assoc]

theorem Span.assignSep_startIndex (u v : Nat) (sp : Span) :
    (Span.assignSep u v sp).startIndex = sp.startIndex := by
  cases sp with
  | mk st en ss se m cs =>
    rw [Span.assignSep]
    cases Span.assignSepList u v en cs <;> rfl

theorem Span.assignSep_endIndex (u v : Nat) (sp : Span) :
    (Span.assignSep u v sp).endIndex = sp.endIndex := by
  cases sp with
  | mk st en ss se m cs =>
    rw [Span.assignSep]
    cases Span.assignSepList u v en cs <;> rfl

theorem Span.assignSepList_eq (u v pe : Nat) (cs : List Span) :
    Span.assignSepList u v pe cs =
      match cs.getLast? with
      | none => none
      | some c =>
        if c.endIndex = pe then some (cs.dropLast ++ [Span.assignSep u v c])
        else none := by
  induction cs with
  | nil => rfl
  | cons a rest ih =>
    cases rest with
    | nil =>
      rw [Span.assignSepList]
      rfl
    | cons b rest' =>
      rw [Span.assignSepList, ih, List.getLast?_cons_cons]
      cases hl : (b :: rest').getLast? with
      | none => simp at hl
      | some c =>
        simp only
        by_cases hc : c.endIndex = pe
        · rw [if_pos hc, if_pos hc]
          have hd : (a :: b :: rest').dropLast = a :: (b :: rest').dropLast :=
            List.dropLast_cons_of_ne_nil (by simp)
          rw [hd]
          rfl
        · rw [if_neg hc, if_neg hc]

/-- The invariant the separator assignment needs: every span along the
descent chain of last children that end exactly at their parent's end has
an empty separator range. -/
def Span.chainClear : Span → Prop
  | .mk st en ss se m cs =>
    ss = se ∧ ∀ c, cs.getLast? = some c → c.endIndex = en → Span.chainClear c
termination_by sp => sizeOf sp
decreasing_by
  rename_i hl he
  exact Span.sizeOf_lt_of_mem_children (List.mem_of_mem_getLast? hl)

@[simp] theorem Span.getTextList_nil (s : Text) : Span.getTextList s [] = [] := rfl

@[simp] theorem Span.getTextList_cons (s : Text) (c : Span) (rest : List Span) :
    Span.getTextList s (c :: rest) = Span.getText s c ++ Span.getTextList s rest := rfl

theorem Span.getText_mk (s : Text) (st en ss se : Nat) (m : SpanMod) (cs : List Span) :
    Span.getText s (.mk st en ss se m cs) =
      Span.preText s (.mk st en ss se m cs) ++ Span.getTextList s cs ++
        Span.sufText s (.mk st en ss se m cs) ++ Span.sepText s (.mk st en ss se m cs) := by
  rw [Span.getText]

theorem Span.preText_mk (s : Text) (st en ss se : Nat) (m : SpanMod) (cs : List Span) :
    Span.preText s (.mk st en ss se m cs) =
      match cs.head? with
      | none => textSlice s st en
      | some c => textSlice s st c.startIndex := by
  cases cs <;> rfl

theorem Span.sufText_mk (s : Text) (st en ss se : Nat) (m : SpanMod) (cs : List Span) :
    Span.sufText s (.mk st en ss se m cs) =
      match cs.getLast? with
      | none => []
      | some c => textSlice s c.endIndex en := rfl

theorem Span.sepText_mk (s : Text) (st en ss se : Nat) (m : SpanMod) (cs : List Span) :
    Span.sepText s (.mk st en ss se m cs) = textSlice s ss se := rfl

theorem Span.assignSep_nil (u v : Nat) (st en ss se : Nat) (m : SpanMod) :
    Span.assignSep u v (.mk st en ss se m []) = .mk st en u v m [] := rfl

theorem Span.assignSep_concat_pos (u v : Nat) (st en ss se : Nat) (m : SpanMod)
    (l : List Span) (c : Span) (h : c.endIndex = en) :
    Span.assignSep u v (.mk st en ss se m (l ++ [c])) =
      .mk st en ss se m (l ++ [Span.assignSep u v c]) := by
  rw [Span.assignSep, Span.assignSepList_eq, List.getLast?_concat]
  simp [h, List.dropLast_concat]

theorem Span.assignSep_concat_neg (u v : Nat) (st en ss se : Nat) (m : SpanMod)
    (l : List Span) (c : Span) (h : ¬ c.endIndex = en) :
    Span.assignSep u v (.mk st en ss se m (l ++ [c])) =
      .mk st en u v m (l ++ [c]) := by
  rw [Span.assignSep, Span.assignSepList_eq, List.getLast?_concat]
  simp [h]

theorem Span.getText_assignSep (s : Text) (u v : Nat) :
    ∀ (sp : Span), Span.chainClear sp →
      Span.getText s (Span.assignSep u v sp) = Span.getText s sp ++ textSlice s u v := by
  suffices H : ∀ (n : Nat) (sp : Span), sizeOf sp ≤ n → Span.chainClear sp →
      Span.getText s (Span.assignSep u v sp) = Span.getText s sp ++ textSlice s u v from
    fun sp h => H (sizeOf sp) sp (Nat.le_refl _) h
  intro n
  induction n with
  | zero =>
    intro sp hsz
    exfalso
    cases sp with
    | mk st en ss se m cs => simp at hsz
  | succ n ih =>
    intro sp hsz hcc
    cases sp with
    | mk st en ss se m cs =>
      rw [Span.chainClear] at hcc
      obtain ⟨hss, hchain⟩ := hcc
      rcases List.eq_nil_or_concat cs with rfl | ⟨l, c, rfl⟩
      · rw [Span.assignSep_nil]
        rw [Span.getText_mk, Span.getText_mk, Span.preText_mk, Span.preText_mk,
          Span.sufText_mk, Span.sufText_mk, Span.sepText_mk, Span.sepText_mk]
        simp only [List.head?_nil, List.getLast?_nil, Span.getTextList_nil]
        rw [hss, textSlice_same]
        simp
      · simp only [List.concat_eq_append] at *
        have hlast : (l ++ [c]).getLast? = some c := List.getLast?_concat l
        by_cases hc : c.endIndex = en
        · rw [Span.assignSep_concat_pos u v st en ss se m l c hc]
          have hccc : Span.chainClear c := hchain c hlast hc
          have hsz' : sizeOf c ≤ n := by
            have h1 : sizeOf c < sizeOf (Span.mk st en ss se m (l ++ [c])) :=
              Span.sizeOf_lt_of_mem_children (by simp)
            omega
          have hIH := ih c hsz' hccc
          rw [Span.getText_mk, Span.getText_mk, Span.preText_mk, Span.preText_mk,
            Span.sufText_mk, Span.sufText_mk, Span.sepText_mk, Span.sepText_mk,
            Span.getTextList_append, Span.getTextList_append, hlast,
            List.getLast?_concat]
          cases l with
          | nil =>
            simp only [List.nil_append, List.head?_cons, Span.getTextList_cons,
              Span.getTextList_nil]
            rw [Span.assignSep_startIndex, Span.assignSep_endIndex, hIH, hss,
              textSlice_same, hc, textSlice_same]
            simp
          | cons a l' =>
            simp only [List.cons_append, List.head?_cons, Span.getTextList_cons,
              Span.getTextList_nil]
            rw [Span.assignSep_endIndex, hIH, hss, textSlice_same, hc,
              textSlice_same]
            simp
        · rw [Span.assignSep_concat_neg u v st en ss se m l c hc]
          rw [Span.getText_mk, Span.getText_mk, Span.preText_mk, Span.preText_mk,
            Span.sufText_mk, Span.sufText_mk, Span.sepText_mk, Span.sepText_mk,
            hlast, hss, textSlice_same]
          simp

/-- The children of a well-formed node are laid out in source order:
each child starts no earlier than the previous one ended (the gap is
trivia), the first no earlier than `lo`, and the last ends by `hi`. -/
def spansOrdered (hi : Nat) : Nat → List TsNode → Prop
  | lo, [] => lo ≤ hi
  | lo, c :: rest => lo ≤ c.start ∧ spansOrdered hi c.stop rest

mutual
/-- Well-formedness of a syntax node, as guaranteed by the TypeScript AST
for nodes without out-of-band children: children lie between getStart()
and end in source order, recursively. -/
def TsNode.wf : TsNode → Prop
  | .mk st en cs => spansOrdered en st cs ∧ TsNode.wfList cs

def TsNode.wfList : List TsNode → Prop
  | [] => True
  | c :: rest => c.wf ∧ TsNode.wfList rest
end

theorem TsNode.wfList_mem : ∀ (l : List TsNode), TsNode.wfList l → ∀ c ∈ l, c.wf := by
  intro l
  induction l with
  | nil => intro _ c hc; exact absurd hc (List.not_mem_nil c)
  | cons a rest ih =>
    intro h c hc
    rw [TsNode.wfList] at h
    rcases List.mem_cons.mp hc with rfl | hc'
    · exact h.1
    · exact ih h.2 c hc'

/-- The stop position of the last node of the list, or `lo` when empty. -/
def lastStop (lo : Nat) (cns : List TsNode) : Nat :=
  match cns.getLast? with
  | none => lo
  | some c => c.stop

theorem lastStop_nil (lo : Nat) : lastStop lo [] = lo := rfl

theorem lastStop_cons (lo : Nat) (c : TsNode) (rest : List TsNode) :
    lastStop lo (c :: rest) = lastStop c.stop rest := by
  cases rest with
  | nil => rfl
  | cons d t =>
    rw [lastStop, lastStop, List.getLast?_cons_cons]
    cases h : (d :: t).getLast? with
    | none => simp at h
    | some e => rfl

theorem spansOrdered_bounds (hi : Nat) :
    ∀ (l : List TsNode) (lo : Nat), spansOrdered hi lo l →
      (∀ c ∈ l, c.start ≤ c.stop) →
      lo ≤ lastStop lo l ∧ lastStop lo l ≤ hi := by
  intro l
  induction l with
  | nil => intro lo h _; rw [lastStop_nil]; exact ⟨Nat.le_refl lo, h⟩
  | cons c rest ih =>
    intro lo h hmem
    rw [spansOrdered] at h
    obtain ⟨h1, h2⟩ := h
    have hcs : c.start ≤ c.stop := hmem c (by simp)
    obtain ⟨ih1, ih2⟩ := ih c.stop h2 (fun d hd => hmem d (List.mem_cons_of_mem c hd))
    rw [lastStop_cons]
    omega

theorem TsNode.wf_start_le_stop : ∀ (n : TsNode), n.wf → n.start ≤ n.stop := by
  suffices H : ∀ (k : Nat) (n : TsNode), sizeOf n ≤ k → n.wf → n.start ≤ n.stop from
    fun n h => H (sizeOf n) n (Nat.le_refl _) h
  intro k
  induction k with
  | zero =>
    intro n hsz
    exfalso
    cases n with
    | mk st en cs => simp at hsz
  | succ k ih =>
    intro n hsz hwf
    cases n with
    | mk st en cs =>
      rw [TsNode.wf] at hwf
      obtain ⟨hord, hl⟩ := hwf
      have hmem : ∀ c ∈ cs, c.start ≤ c.stop := by
        intro c hc
        refine ih c ?_ (TsNode.wfList_mem cs hl c hc)
        have : sizeOf c < sizeOf (TsNode.mk st en cs) := by
          have h1 : sizeOf c < sizeOf cs := List.sizeOf_lt_of_mem hc
          simp
          omega
        omega
      obtain ⟨h1, h2⟩ := spansOrdered_bounds en cs st hord hmem
      simp only [TsNode.start_mk, TsNode.stop_mk]
      omega

theorem Span.buildLoop_nil (en st : Nat) (acc : List Span) :
    Span.buildLoop en [] st acc = some (st, acc) := rfl

theorem Span.buildLoop_cons (en : Nat) (cn : TsNode) (rest : List TsNode)
    (st : Nat) (acc : List Span) (csp : Span)
    (h : Span.build cn = some csp) (hst : ¬ csp.startIndex < st)
    (hend : ¬ en < csp.endIndex) :
    Span.buildLoop en (cn :: rest) st acc =
      Span.buildLoop en rest st
        ((match acc.getLast? with
          | none => acc
          | some previousChildSpan =>
            if previousChildSpan.endIndex < csp.startIndex then
              acc.dropLast ++
                [Span.assignSep previousChildSpan.endIndex csp.startIndex previousChildSpan]
            else acc) ++ [csp]) := by
  rw [Span.buildLoop, h]
  simp only [if_neg hst, if_neg hend]

theorem Span.head?_concat_map_start (accl : List Span) (x y : Span)
    (h : x.startIndex = y.startIndex) :
    ((accl ++ [x]).head?).map Span.startIndex =
      ((accl ++ [y]).head?).map Span.startIndex := by
  cases accl <;> simp [h]

theorem Span.buildLoop_text (s : Text) (en : Nat) :
    ∀ (cns : List TsNode) (lo st : Nat) (acc : List Span),
      (∀ c ∈ cns, ∃ csp, Span.build c = some csp ∧ csp.startIndex = c.start ∧
        csp.endIndex = c.stop ∧ Span.chainClear csp ∧
        Span.getText s csp = textSlice s c.start c.stop) →
      spansOrdered en lo cns →
      (∀ c ∈ cns, c.start ≤ c.stop) →
      st ≤ lo →
      (∀ la, acc.getLast? = some la → la.endIndex = lo ∧ Span.chainClear la) →
      ∃ accF, Span.buildLoop en cns st acc = some (st, accF) ∧
        Span.getTextList s accF = Span.getTextList s acc ++
          (match cns.head? with
           | none => []
           | some c0 =>
             (if acc.isEmpty then [] else textSlice s lo c0.start) ++
               textSlice s c0.start (lastStop lo cns)) ∧
        (∀ la, accF.getLast? = some la →
          la.endIndex = lastStop lo cns ∧ Span.chainClear la) ∧
        accF.head?.map Span.startIndex =
          (acc.head?.map Span.startIndex).orElse
            (fun _ => cns.head?.map TsNode.start) := by
  intro cns
  induction cns with
  | nil =>
    intro lo st acc _ _ _ _ hacc
    refine ⟨acc, Span.buildLoop_nil en st acc, by simp, ?_, ?_⟩
    · rw [lastStop_nil]; exact hacc
    · simp only [List.head?_nil, Option.map_none]
      cases acc.head? <;> rfl
  | cons cn rest ih =>
    intro lo st acc hbuild hord hmem hst hacc
    obtain ⟨csp, hb, hbst, hben, hbcc, hbtext⟩ := hbuild cn (by simp)
    rw [spansOrdered] at hord
    obtain ⟨hlo_start, hord'⟩ := hord
    have hss : cn.start ≤ cn.stop := hmem cn (by simp)
    have hmem' : ∀ c ∈ rest, c.start ≤ c.stop :=
      fun c hc => hmem c (List.mem_cons_of_mem cn hc)
    have hstop_en : cn.stop ≤ en := by
      obtain ⟨b1, b2⟩ := spansOrdered_bounds en rest cn.stop hord' hmem'
      omega
    have hnotlt : ¬ csp.startIndex < st := by omega
    have hnotend : ¬ en < csp.endIndex := by omega
    have hbuild' : ∀ c ∈ rest, ∃ csp, Span.build c = some csp ∧
        csp.startIndex = c.start ∧ csp.endIndex = c.stop ∧ Span.chainClear csp ∧
        Span.getText s csp = textSlice s c.start c.stop :=
      fun c hc => hbuild c (List.mem_cons_of_mem cn hc)
    have hrest_glue : textSlice s cn.start cn.stop ++
        (match rest.head? with
         | none => []
         | some c1 => textSlice s cn.stop c1.start ++
             textSlice s c1.start (lastStop cn.stop rest)) =
        textSlice s cn.start (lastStop lo (cn :: rest)) := by
      rw [lastStop_cons]
      cases rest with
      | nil => rw [lastStop_nil]; simp
      | cons c1 rest' =>
        simp only [List.head?_cons]
        rw [spansOrdered] at hord'
        obtain ⟨hc1, hord''⟩ := hord'
        have hc1ss : c1.start ≤ c1.stop := hmem' c1 (by simp)
        have hbounds := spansOrdered_bounds en rest' c1.stop hord''
          (fun d hd => hmem' d (List.mem_cons_of_mem c1 hd))
        rw [lastStop_cons]
        rw [textSlice_append s (by omega) (by omega),
          textSlice_append s (by omega) (by omega)]
    rcases List.eq_nil_or_concat acc with rfl | ⟨accl, la, rfl⟩
    · obtain ⟨accF, hloop, htext, hlast, hhead⟩ := ih cn.stop st [csp] hbuild'
        hord' hmem' (by omega)
        (by intro la hla
            simp only [List.getLast?_cons, List.getLast?_nil] at hla
            cases hla
            exact ⟨hben, hbcc⟩)
      refine ⟨accF, ?_, ?_, ?_, ?_⟩
      · rw [Span.buildLoop_cons en cn rest st [] csp hb hnotlt hnotend]
        simp only [List.getLast?_nil, List.nil_append]
        exact hloop
      · rw [htext]
        have hmatch : (match rest.head? with
            | none => ([] : Text)
            | some c0 =>
              (if ([csp] : List Span).isEmpty = true then [] else
                textSlice s cn.stop c0.start) ++
                textSlice s c0.start (lastStop cn.stop rest)) =
            (match rest.head? with
            | none => ([] : Text)
            | some c1 => textSlice s cn.stop c1.start ++
                textSlice s c1.start (lastStop cn.stop rest)) := by
          cases rest.head? <;> simp
        simp only [Span.getTextList_cons, Span.getTextList_nil, List.append_nil]
        rw [hmatch, hbtext, hrest_glue]
        simp only [List.head?_cons, List.isEmpty_nil, if_true]
        simp
      · intro la hla
        rw [lastStop_cons] at *
        exact hlast la hla
      · rw [hhead]
        simp [hbst]
    · simp only [List.concat_eq_append] at hacc ⊢
      have hla := hacc la (List.getLast?_concat accl)
      obtain ⟨hlaend, hlacc⟩ := hla
      have haccstep : (match (accl ++ [la]).getLast? with
          | none => accl ++ [la]
          | some previousChildSpan =>
            if previousChildSpan.endIndex < csp.startIndex then
              (accl ++ [la]).dropLast ++
                [Span.assignSep previousChildSpan.endIndex csp.startIndex
                  previousChildSpan]
            else accl ++ [la]) =
          if lo < cn.start then accl ++ [Span.assignSep lo cn.start la]
          else accl ++ [la] := by
        rw [List.getLast?_concat]
        simp only [hlaend, hbst, List.dropLast_concat]
      set acc' := if lo < cn.start then accl ++ [Span.assignSep lo cn.start la]
        else accl ++ [la] with haccAdef
      have hacc'text : Span.getTextList s acc' =
          Span.getTextList s (accl ++ [la]) ++ textSlice s lo cn.start := by
        rw [haccAdef]
        by_cases hgap : lo < cn.start
        · rw [if_pos hgap, Span.getTextList_append, Span.getTextList_append]
          simp only [Span.getTextList_cons, Span.getTextList_nil, List.append_nil]
          rw [Span.getText_assignSep s lo cn.start la hlacc, List.append_assoc]
        · rw [if_neg hgap]
          have : lo = cn.start := by omega
          rw [← this, textSlice_same, List.append_nil]
      have hacc'head : acc'.head?.map Span.startIndex =
          ((accl ++ [la]).head?).map Span.startIndex := by
        rw [haccAdef]
        by_cases hgap : lo < cn.start
        · rw [if_pos hgap]
          exact Span.head?_concat_map_start accl _ la (Span.assignSep_startIndex _ _ la)
        · rw [if_neg hgap]
      have hacc'ne : acc' ≠ [] := by
        rw [haccAdef]
        by_cases hgap : lo < cn.start
        · rw [if_pos hgap]; simp
        · rw [if_neg hgap]; simp
      obtain ⟨accF, hloop, htext, hlast, hhead⟩ := ih cn.stop st (acc' ++ [csp])
        hbuild' hord' hmem' (by omega)
        (by intro lb hlb
            rw [List.getLast?_concat] at hlb
            cases hlb
            exact ⟨hben, hbcc⟩)
      refine ⟨accF, ?_, ?_, ?_, ?_⟩
      · rw [Span.buildLoop_cons en cn rest st (accl ++ [la]) csp hb hnotlt hnotend,
          haccstep]
        exact hloop
      · rw [htext, Span.getTextList_append s acc' [csp]]
        have hmatch2 : (match rest.head? with
            | none => ([] : Text)
            | some c0 =>
              (if (acc' ++ [csp]).isEmpty = true then [] else
                textSlice s cn.stop c0.start) ++
                textSlice s c0.start (lastStop cn.stop rest)) =
            (match rest.head? with
            | none => ([] : Text)
            | some c1 => textSlice s cn.stop c1.start ++
                textSlice s c1.start (lastStop cn.stop rest)) := by
          cases rest.head? <;> simp
        simp only [List.head?_cons, Span.getTextList_cons, Span.getTextList_nil,
          List.append_nil]
        rw [hmatch2, hacc'text, hbtext]
        have hne : ((accl ++ [la]).isEmpty) = false := by simp
        rw [hne]
        simp only [Bool.false_eq_true, if_false]
        simp only [List.append_assoc]
        rw [hrest_glue]
      · intro lb hlb
        rw [lastStop_cons]
        exact hlast lb hlb
      · rw [hhead]
        obtain ⟨x, hx⟩ : ∃ x, acc'.head? = some x :=
          Option.ne_none_iff_exists'.mp
            (fun hnone => hacc'ne (List.head?_eq_none_iff.mp hnone))
        have hax : (acc' ++ [csp]).head? = some x := by
          rw [List.head?_append, hx]
          rfl
        obtain ⟨y, hy⟩ : ∃ y, (accl ++ [la]).head? = some y := by
          cases accl with
          | nil => exact ⟨la, rfl⟩
          | cons a t => exact ⟨a, rfl⟩
        have hxy : x.startIndex = y.startIndex := by
          have h2 := hacc'head
          rw [hx, hy] at h2
          simpa using h2
        rw [hax, hy]
        simp [hxy, Option.orElse]

theorem Span.build_wf (s : Text) :
    ∀ (n : TsNode), n.wf →
      ∃ sp, Span.build n = some sp ∧
        sp.startIndex = n.start ∧ sp.endIndex = n.stop ∧ Span.chainClear sp ∧
        Span.getText s sp = textSlice s n.start n.stop := by
  suffices H : ∀ (k : Nat) (n : TsNode), sizeOf n ≤ k → n.wf →
      ∃ sp, Span.build n = some sp ∧
        sp.startIndex = n.start ∧ sp.endIndex = n.stop ∧ Span.chainClear sp ∧
        Span.getText s sp = textSlice s n.start n.stop from
    fun n h => H (sizeOf n) n (Nat.le_refl _) h
  intro k
  induction k with
  | zero =>
    intro n hsz
    exfalso
    cases n with
    | mk st en cs => simp at hsz
  | succ k ih =>
    intro n hsz hwf
    cases n with
    | mk st en cs =>
      rw [TsNode.wf] at hwf
      obtain ⟨hord, hlist⟩ := hwf
      have hmem : ∀ c ∈ cs, c.start ≤ c.stop :=
        fun c hc => TsNode.wf_start_le_stop c (TsNode.wfList_mem cs hlist c hc)
      have hbuild : ∀ c ∈ cs, ∃ csp, Span.build c = some csp ∧
          csp.startIndex = c.start ∧ csp.endIndex = c.stop ∧ Span.chainClear csp ∧
          Span.getText s csp = textSlice s c.start c.stop := by
        intro c hc
        refine ih c ?_ (TsNode.wfList_mem cs hlist c hc)
        have h1 : sizeOf c < sizeOf cs := List.sizeOf_lt_of_mem hc
        have h2 : sizeOf (TsNode.mk st en cs) = 1 + sizeOf st + sizeOf en + sizeOf cs := by
          simp
        omega
      obtain ⟨accF, hloop, htext, hlast, hhead⟩ :=
        Span.buildLoop_text s en cs st st [] hbuild hord hmem (Nat.le_refl st)
          (by intro la hla; simp at hla)
      refine ⟨.mk st en 0 0 SpanMod.reset accF, ?_, rfl, rfl, ?_, ?_⟩
      · rw [Span.build, hloop]
      · rw [Span.chainClear]
        exact ⟨rfl, fun c hc _ => (hlast c hc).2⟩
      · cases cs with
        | nil =>
          have haccF : accF = [] := by
            rw [Span.buildLoop_nil] at hloop
            cases hloop
            rfl
          subst haccF
          rw [Span.getText_mk, Span.preText_mk, Span.sufText_mk, Span.sepText_mk]
          simp [textSlice_same]
        | cons c0 rest =>
          rw [spansOrdered] at hord
          obtain ⟨hst_c0, hord'⟩ := hord
          have hc0ss : c0.start ≤ c0.stop := hmem c0 (by simp)
          have hbounds := spansOrdered_bounds en rest c0.stop hord'
            (fun d hd => hmem d (List.mem_cons_of_mem c0 hd))
          obtain ⟨ha, hha, hhastart⟩ : ∃ ha, accF.head? = some ha ∧
              ha.startIndex = c0.start := by
            simp only [List.head?_nil, Option.map_none, List.head?_cons,
              Option.map_some] at hhead
            cases haccF : accF.head? with
            | none => rw [haccF] at hhead; simp [Option.orElse] at hhead
            | some x =>
              rw [haccF] at hhead
              simp [Option.orElse] at hhead
              exact ⟨x, rfl, hhead⟩
          obtain ⟨la, hla⟩ : ∃ la, accF.getLast? = some la := by
            refine Option.ne_none_iff_exists'.mp ?_
            intro hnone
            have : accF = [] := List.getLast?_eq_none_iff.mp hnone
            rw [this] at hha
            simp at hha
          obtain ⟨hlaend, _⟩ := hlast la hla
          rw [Span.getText_mk, Span.preText_mk, Span.sufText_mk, Span.sepText_mk]
          simp only [hha, hla]
          rw [htext, hhastart, hlaend]
          simp only [List.head?_cons, List.isEmpty_nil, if_true,
            Span.getTextList_nil, List.nil_append, textSlice_same, List.append_nil]
          rw [lastStop_cons] at *
          rw [textSlice_append s (by omega) (by omega),
            textSlice_append s (by omega) (by omega)]
          rfl

/-- C1: getText() is the recursive concatenation prefix ++ children ++
suffix ++ separator, and over a well-formed syntax node (children in
source order within the parent's extent) the root span's getText()
reproduces the node's original source text exactly. -/
theorem C1_span_roundtrip (s : Text) (n : TsNode) (hwf : n.wf) :
    (∀ (st en ss se : Nat) (m : SpanMod) (cs : List Span),
      Span.getText s (.mk st en ss se m cs) =
        Span.preText s (.mk st en ss se m cs) ++ Span.getTextList s cs ++
          Span.sufText s (.mk st en ss se m cs) ++
          Span.sepText s (.mk st en ss se m cs)) ∧
    (∃ sp, Span.build n = some sp ∧ sp.startIndex = n.start ∧
      sp.endIndex = n.stop ∧ Span.getText s sp = textSlice s n.start n.stop) := by
  refine ⟨Span.getText_mk s, ?_⟩
  obtain ⟨sp, h1, h2, h3, _, h5⟩ := Span.build_wf s n hwf
  exact ⟨sp, h1, h2, h3, h5⟩

/-- Witness for C1: the tree over "ab cd" with children covering "ab" and
"cd" and a one-space gap round-trips to the whole source text. -/
theorem C1_span_roundtrip_witness :
    (TsNode.mk 0 5 [.mk 0 2 [], .mk 3 5 []]).wf ∧
    (∃ sp, Span.build (.mk 0 5 [.mk 0 2 [], .mk 3 5 []]) = some sp ∧
      sp.startIndex = (TsNode.mk 0 5 [.mk 0 2 [], .mk 3 5 []]).start ∧
      sp.endIndex = (TsNode.mk 0 5 [.mk 0 2 [], .mk 3 5 []]).stop ∧
      Span.getText "ab cd".toList sp =
        textSlice "ab cd".toList (TsNode.mk 0 5 [.mk 0 2 [], .mk 3 5 []]).start
          (TsNode.mk 0 5 [.mk 0 2 [], .mk 3 5 []]).stop) := by
  have hwf : (TsNode.mk 0 5 [.mk 0 2 [], .mk 3 5 []]).wf := by
    rw [TsNode.wf]
    refine ⟨?_, ?_⟩
    · rw [spansOrdered]
      refine ⟨by decide, ?_⟩
      rw [spansOrdered]
      refine ⟨by decide, ?_⟩
      rw [spansOrdered]
      decide
    · rw [TsNode.wfList]
      refine ⟨⟨?_, ?_⟩, ?_⟩
      · rw [spansOrdered]; decide
      · rw [TsNode.wfList]; trivial
      · rw [TsNode.wfList]
        refine ⟨⟨?_, ?_⟩, ?_⟩
        · rw [spansOrdered]; decide
        · rw [TsNode.wfList]; trivial
        · rw [TsNode.wfList]; trivial
  exact ⟨hwf, (C1_span_roundtrip "ab cd".toList _ hwf).2⟩
